import Mathlib

/-!
Verification of the thinkspace storage and search layer
(`src/thinkspace/storage.py`).

Shallow embedding.  The SQLite `notes` table (schema in `_ensure_schema`,
`id INTEGER PRIMARY KEY` — a rowid alias, no `AUTOINCREMENT`) is embedded as
a `List Note` kept in ascending rowid (`id`) order, exactly as the SQLite
B-tree stores rows; a plain scan visits rows in ascending `id` order and
`ORDER BY id DESC` is a reverse scan.  `WellFormed` states that invariant;
it holds for the empty table and is preserved by every mutation.

SQLite compares `TEXT` values with the default BINARY collation (memcmp on
the UTF-8 bytes), which on valid UTF-8 coincides with codepoint-lexicographic
order; that order is embedded as `strLe`.  SQLite's `LIKE` is
case-insensitive on the ASCII range, as is Lean's `Char.toLower`; the `LIKE`
pattern language (`%` matches any sequence, `_` any single character, all
other characters match themselves up to ASCII case) is embedded as
`likeMatch`.  Rowid assignment for an `INTEGER PRIMARY KEY` table without
`AUTOINCREMENT` gives a new row one more than the largest rowid currently in
use (1 for the empty table); this is `nextId`.

The FTS5 virtual-table backend is not repository code; `search_notes` takes
the probe result (`has_fts5`) as a boolean and the `MATCH` subquery as a
function that either returns the matching rowids or fails with an
`sqlite3.OperationalError` message, embedded as `Except String`.  Python
exceptions that the repository code does not catch are propagated `.error`
values.
-/

/-- A row of the `notes` table (the `Note` dataclass, storage.py lines
85-92).  `created_at` and `path` are stored as strings, exactly as the code
stores `now_iso()` and `str(path)`. -/
structure Note where
  id : Nat
  text : String
  project : String
  tags : String
  created_at : String
  path : String
deriving DecidableEq

/-- Codepoint-lexicographic comparison of character lists: the order in
which SQLite's BINARY collation and Python's `str` comparison put the
(valid-UTF-8) strings of this development. -/
def charListLe : List Char → List Char → Bool
  | [], _ => true
  | _ :: _, [] => false
  | a :: as, b :: bs =>
    if a.toNat < b.toNat then true
    else if b.toNat < a.toNat then false
    else charListLe as bs

/-- String comparison used for `created_at` bounds and tag sorting. -/
def strLe (a b : String) : Bool := charListLe a.data b.data

/-- `strLe` as a relation, for use with `List.insertionSort`. -/
def strRel (a b : String) : Prop := strLe a b = true

instance : DecidableRel strRel := fun _ _ => decEq _ _

/-- Ascending-id relation on rows. -/
def byIdLt (a b : Note) : Prop := a.id < b.id

/-- Descending-id relation on rows (the `ORDER BY id DESC` output order). -/
def byIdGt (a b : Note) : Prop := b.id < a.id

instance : DecidableRel byIdLt := fun a b => Nat.decLt a.id b.id

instance : DecidableRel byIdGt := fun a b => Nat.decLt b.id a.id

/-- Executable check that the rows of a table carry strictly ascending ids
(the physical rowid order of the SQLite B-tree). -/
def ascIds : List Note → Bool
  | [] => true
  | [_] => true
  | a :: b :: rest => decide (a.id < b.id) && ascIds (b :: rest)

/-- Invariant of every reachable `notes` table: rows are listed in strictly
ascending rowid order (hence ids are unique — `id` is the primary key). -/
def WellFormed (st : List Note) : Prop := ascIds st = true

instance : DecidablePred WellFormed := fun _ => decEq _ _

/-- Largest rowid currently in use (0 for the empty table). -/
def maxId (st : List Note) : Nat := st.foldr (fun n m => max n.id m) 0

/-- Rowid SQLite assigns to the next `INSERT`: the schema declares
`id INTEGER PRIMARY KEY` with no `AUTOINCREMENT`, so the new rowid is one
more than the largest rowid currently in the table (1 if it is empty) —
deleted rowids at the top are reused. -/
def nextId (st : List Note) : Nat := maxId st + 1

/-- The sorted, de-duplicated tag list: Python's `sorted(set(tags))`
(insert_note line 104). -/
def sortedTags (tags : List String) : List String :=
  List.insertionSort strRel tags.dedup

/-- The stored `tags` column: `','.join(sorted(set(tags)))`. -/
def normalizeTags (tags : List String) : String :=
  String.intercalate "," (sortedTags tags)

/-- `insert_note` (storage.py lines 95-110): assigns `created_at` from the
clock read taken during the call (`now_iso()`, passed here as `now`),
normalizes the tags, inserts the row, and returns `cur.lastrowid`.  The new
row lands at the ascending-rowid position, i.e. at the end of the table. -/
def insert_note (st : List Note) (text project : String) (tags : List String)
    (now : String) (path : String) : Nat × List Note :=
  (nextId st,
    st ++ [⟨nextId st, text, project, normalizeTags tags, now, path⟩])

/-- `get_note` (storage.py lines 120-124): `SELECT * FROM notes WHERE
id = ?`, first row or `None`. -/
def get_note (st : List Note) (note_id : Nat) : Option Note :=
  st.find? (fun n => n.id == note_id)

/-- `delete_note` (storage.py lines 127-131): `DELETE FROM notes WHERE
id = ?`, then reports `cur.rowcount > 0` — whether the table shrank. -/
def delete_note (st : List Note) (note_id : Nat) : Bool × List Note :=
  let remaining := st.filter (fun n => !(n.id == note_id))
  (decide (remaining.length < st.length), remaining)

/-- `iter_recent` (storage.py lines 113-117): `SELECT * FROM notes ORDER BY
id DESC LIMIT ?`.  On the ascending-rowid table this is a reverse scan,
truncated to `limit`. -/
def iter_recent (st : List Note) (limit : Nat) : List Note :=
  st.reverse.take limit

/-- Characters Python's `str.strip()` removes (ASCII whitespace; the tag
strings of this development are ASCII). -/
def isStripChar (c : Char) : Bool :=
  c = ' ' || c = '\t' || c = '\n' || c = '\r' || c = '\x0b' || c = '\x0c'

/-- Python's `str.strip()` on a character list. -/
def stripChars (cs : List Char) : List Char :=
  ((cs.dropWhile isStripChar).reverse.dropWhile isStripChar).reverse

/-- Python's `str.split(',')` on a character list: the comma-separated
fragments, `[[]]` for the empty string. -/
def splitComma : List Char → List (List Char)
  | [] => [[]]
  | c :: rest =>
    if c = ',' then [] :: splitComma rest
    else
      match splitComma rest with
      | [] => [[c]]
      | g :: gs => (c :: g) :: gs

/-- The tag fragments `top_tags` extracts from one stored `tags` string
(storage.py lines 140-144): split on commas, strip each fragment, keep the
non-empty ones. -/
def noteTagFrags (tagsStr : String) : List String :=
  ((splitComma tagsStr.data).map (fun g => String.mk (stripChars g))).filter
    (fun t => !t.isEmpty)

/-- All tag fragments over the table, in scan order. -/
def allTagFrags : List Note → List String
  | [] => []
  | n :: rest => noteTagFrags n.tags ++ allTagFrags rest

/-- The distinct tags, keyed in first-occurrence order (the `counts` dict of
`top_tags`). -/
def tagKeys (st : List Note) : List String := (allTagFrags st).dedup

/-- Occurrences of one tag across the table (the `counts` dict value). -/
def tagCount (st : List Note) (t : String) : Nat := (allTagFrags st).count t

/-- The `counts.items()` association list. -/
def tagPairs (st : List Note) : List (String × Nat) :=
  (tagKeys st).map (fun t => (t, tagCount st t))

/-- The sort key of `top_tags`: Python's `key=lambda kv: (-kv[1], kv[0])` —
descending count, ties by ascending tag name. -/
def tagPairLe (p q : String × Nat) : Bool :=
  if q.2 < p.2 then true
  else if p.2 < q.2 then false
  else strLe p.1 q.1

/-- `tagPairLe` as a relation, for use with `List.insertionSort`. -/
def tagPairRel (p q : String × Nat) : Prop := tagPairLe p q = true

instance : DecidableRel tagPairRel := fun _ _ => decEq _ _

/-- `top_tags` (storage.py lines 134-145): count the stripped non-empty
comma fragments of every stored `tags` string, sort the (tag, count) pairs
by descending count then ascending tag, truncate to `limit`.  The tag keys
are distinct, so Python's stable sort and any sort by `tagPairLe` agree. -/
def top_tags (st : List Note) (limit : Nat) : List (String × Nat) :=
  (List.insertionSort tagPairRel (tagPairs st)).take limit

/-- SQLite `LIKE` semantics (default, no `ESCAPE`): `%` matches any
character sequence, `_` any single character, and any other pattern
character matches itself up to ASCII case (`Char.toLower` folds exactly the
ASCII range, as SQLite's `LIKE` does). -/
def likeMatch : List Char → List Char → Bool
  | [], s => s.isEmpty
  | p :: ps, s =>
    if p = '%' then
      s.tails.any (fun t => likeMatch ps t)
    else
      match s with
      | [] => false
      | c :: s2 =>
        if p = '_' then likeMatch ps s2
        else (p.toLower == c.toLower) && likeMatch ps s2

/-- The fallback pattern built at storage.py line 168: a percent sign, the
query, and another percent sign (Python's percent-query-percent f-string). -/
def likePattern (query : String) : List Char :=
  '%' :: (query.data ++ ['%'])

/-- The fallback text clause `(text LIKE ? OR tags LIKE ?)` (storage.py
lines 167-169).  `project` is deliberately not in it. -/
def likeClause (query : String) (n : Note) : Bool :=
  likeMatch (likePattern query) n.text.data ||
    likeMatch (likePattern query) n.tags.data

/-- One optional filter of `search_notes`: Python's `if project:` (and
`if since:`, `if until:`) appends a clause only when the value is neither
`None` nor the empty string — an empty-string filter is treated as absent
(Python truthiness). -/
def optClause (v : Option String) (mk : String → Note → Bool) :
    List (Note → Bool) :=
  match v with
  | none => []
  | some s => if s.isEmpty then [] else [mk s]

/-- Conjunction of the collected `WHERE` clauses; with no clauses the query
degenerates to `WHERE 1=1`, which every row passes. -/
def applyClauses (cs : List (Note → Bool)) (n : Note) : Bool :=
  cs.all (fun c => c n)

/-- Filtering, ordering and truncation shared by every `search_notes`
branch: `SELECT * FROM notes WHERE <clauses> ORDER BY id DESC LIMIT ?`
(storage.py lines 174-190). -/
def runSelect (textClauses : List (Note → Bool))
    (project since until_ : Option String) (limit : Nat) (st : List Note) :
    List Note :=
  let clauses := textClauses
      ++ optClause project (fun p n => n.project == p)
      ++ optClause since (fun s n => strLe s n.created_at)
      ++ optClause until_ (fun u n => strLe n.created_at u)
  (st.filter (applyClauses clauses)).reverse.take limit

/-- `search_notes` (storage.py lines 148-190).  `ftsAvail` is the
`has_fts5(conn)` probe; `ftsMatch` is the FTS5 backend's
`SELECT rowid FROM notes_fts WHERE notes_fts MATCH ?` subquery, which
either yields the matching rowids or raises `sqlite3.OperationalError`
(e.g. on malformed MATCH syntax) — the code wraps it in no `try`, so the
`.error` outcome propagates to the caller.  With a non-empty query and no
FTS5, the `LIKE` fallback clause is used; with an empty query no text
clause is added. -/
def search_notes (ftsAvail : Bool) (ftsMatch : String → Except String (List Nat))
    (query : String) (project since until_ : Option String) (limit : Nat)
    (st : List Note) : Except String (List Note) :=
  if query.isEmpty then
    Except.ok (runSelect [] project since until_ limit st)
  else if ftsAvail then
    match ftsMatch query with
    | Except.error e => Except.error e
    | Except.ok rowids =>
      Except.ok
        (runSelect [fun n => rowids.contains n.id] project since until_ limit st)
  else
    Except.ok (runSelect [likeClause query] project since until_ limit st)

/-- A sample row used by concrete witness stores. -/
def sampleNote (i : Nat) : Note :=
  ⟨i, "note", "demo", "", "2025-01-01T00:00:00+00:00", "/w"⟩

deriving instance DecidableEq for Except

/-- Specification form of the project filter: when the filter is present
(passed and non-empty — Python's `if project:` guard), the note's project
must equal it exactly; otherwise every note passes. -/
def projPass : Option String → Note → Bool
  | none, _ => true
  | some v, n => if v.isEmpty then true else n.project == v

/-- Specification form of the since filter: inclusive lower bound
`since <= created_at` in SQLite string order, when present. -/
def sincePass : Option String → Note → Bool
  | none, _ => true
  | some v, n => if v.isEmpty then true else strLe v n.created_at

/-- Specification form of the until filter: inclusive upper bound
`created_at <= until` in SQLite string order, when present. -/
def untilPass : Option String → Note → Bool
  | none, _ => true
  | some v, n => if v.isEmpty then true else strLe n.created_at v

/-- A concrete filter-composition store: two projects, three dates. -/
def filterStore : List Note :=
  [⟨1, "one", "alpha", "", "2025-01-01T00:00:00+00:00", "/w"⟩,
   ⟨2, "two", "beta", "", "2025-01-02T00:00:00+00:00", "/w"⟩,
   ⟨3, "three", "alpha", "", "2025-01-02T09:00:00+00:00", "/w"⟩,
   ⟨4, "four", "alpha", "", "2025-01-03T00:00:00+00:00", "/w"⟩]

/-- Case-insensitive (ASCII folding) substring: the spec's "queryText is a
case-insensitive substring of" a field. -/
def ciSubstr (q s : String) : Prop :=
  (q.data.map Char.toLower) <:+: (s.data.map Char.toLower)

instance (q s : String) : Decidable (ciSubstr q s) := List.decidableInfix _ _

/-- Queries containing no LIKE wildcard characters (`%` or `_`). -/
def wildcardFree (q : String) : Bool :=
  q.data.all (fun c => !(c == '%') && !(c == '_'))

/-- A concrete fallback store, mirroring the repository's own fallback test:
the query `beta` occurs in exactly the first note's text. -/
def likeStore : List Note :=
  [⟨1, "Alpha beta gamma", "demo", "project:demo", "2025-01-01", "/w"⟩,
   ⟨2, "delta epsilon", "demo", "project:demo", "2025-01-02", "/w"⟩]

/-- The spec's tag-ranking store: occurrence counts a three times, b three
times, c once. -/
def tagStore : List Note :=
  [⟨1, "one", "p", "a,b", "2025-01-01", "/w"⟩,
   ⟨2, "two", "p", "a,b", "2025-01-01", "/w"⟩,
   ⟨3, "three", "p", "a,b", "2025-01-01", "/w"⟩,
   ⟨4, "four", "p", "c", "2025-01-01", "/w"⟩]

theorem charListLe_refl (a : List Char) : charListLe a a = true := by
  induction a with
  | nil => rfl
  | cons c cs ih => simp [charListLe, ih]

theorem charListLe_total (a b : List Char) :
    charListLe a b = true ∨ charListLe b a = true := by
  induction a generalizing b with
  | nil => exact Or.inl rfl
  | cons x xs ih =>
    cases b with
    | nil => exact Or.inr rfl
    | cons y ys =>
      rcases Nat.lt_trichotomy x.toNat y.toNat with h | h | h
      · exact Or.inl (by simp [charListLe, h])
      · rcases ih ys with h2 | h2
        · exact Or.inl (by simp [charListLe, h, h2])
        · exact Or.inr (by simp [charListLe, h, h2])
      · exact Or.inr (by simp [charListLe, h])

theorem charListLe_trans {a b c : List Char} (hab : charListLe a b = true)
    (hbc : charListLe b c = true) : charListLe a c = true := by
  induction a generalizing b c with
  | nil => rfl
  | cons x xs ih =>
    cases b with
    | nil => simp [charListLe] at hab
    | cons y ys =>
      cases c with
      | nil => simp [charListLe] at hbc
      | cons z zs =>
        simp only [charListLe] at hab hbc ⊢
        split_ifs at hab hbc ⊢ with h1 h2 h3 h4 h5 h6 <;>
          first
            | rfl
            | omega
            | (exact ih hab hbc)

theorem char_toNat_inj {a b : Char} (h : a.toNat = b.toNat) : a = b := by
  apply Char.ext
  exact UInt32.ext h

theorem charListLe_antisymm {a b : List Char} (hab : charListLe a b = true)
    (hba : charListLe b a = true) : a = b := by
  induction a generalizing b with
  | nil =>
    cases b with
    | nil => rfl
    | cons y ys => simp [charListLe] at hba
  | cons x xs ih =>
    cases b with
    | nil => simp [charListLe] at hab
    | cons y ys =>
      simp only [charListLe] at hab hba
      by_cases h1 : x.toNat < y.toNat
      · rw [if_neg (by omega), if_pos h1] at hba
        exact absurd hba (by simp)
      · by_cases h2 : y.toNat < x.toNat
        · rw [if_neg h1, if_pos h2] at hab
          exact absurd hab (by simp)
        · rw [if_neg h1, if_neg h2] at hab
          rw [if_neg h2, if_neg h1] at hba
          have hxy : x = y := char_toNat_inj (by omega)
          rw [hxy, ih hab hba]

theorem strLe_refl (s : String) : strLe s s = true := charListLe_refl _

instance : IsTotal String strRel :=
  ⟨fun a b => charListLe_total a.data b.data⟩

instance : IsTrans String strRel :=
  ⟨fun _ _ _ hab hbc => charListLe_trans hab hbc⟩

instance : IsAntisymm String strRel :=
  ⟨fun a b hab hba => by
    cases a with
    | mk da =>
      cases b with
      | mk db => exact congrArg String.mk (charListLe_antisymm hab hba)⟩

instance : IsTrans Note byIdLt := ⟨fun _ _ _ h1 h2 => Nat.lt_trans h1 h2⟩

instance : IsTrans Note byIdGt := ⟨fun _ _ _ h1 h2 => Nat.lt_trans h2 h1⟩

theorem ascIds_iff_chain' (st : List Note) :
    ascIds st = true ↔ List.Chain' byIdLt st := by
  induction st with
  | nil => simp [ascIds]
  | cons a rest ih =>
    cases rest with
    | nil => simp [ascIds]
    | cons b rest2 =>
      rw [List.chain'_cons, ← ih]
      simp [ascIds, byIdLt]

theorem wellFormed_iff_pairwise (st : List Note) :
    WellFormed st ↔ st.Pairwise byIdLt := by
  rw [WellFormed, ascIds_iff_chain', List.chain'_iff_pairwise]

theorem mem_le_maxId {st : List Note} {n : Note} (h : n ∈ st) :
    n.id ≤ maxId st := by
  induction st with
  | nil => cases h
  | cons a rest ih =>
    rcases List.mem_cons.mp h with rfl | h2
    · exact Nat.le_max_left _ _
    · exact Nat.le_trans (ih h2) (Nat.le_max_right _ _)

theorem mem_lt_nextId {st : List Note} {n : Note} (h : n ∈ st) :
    n.id < nextId st := Nat.lt_succ_of_le (mem_le_maxId h)

theorem find?_append_of_none {α : Type} {p : α → Bool} {l1 l2 : List α}
    (h : ∀ x ∈ l1, p x = false) :
    (l1 ++ l2).find? p = l2.find? p := by
  induction l1 with
  | nil => rfl
  | cons a rest ih =>
    have ha : p a = false := h a (List.mem_cons_self a rest)
    simp only [List.cons_append, List.find?, ha]
    exact ih (fun x hx => h x (List.mem_cons_of_mem a hx))

theorem wellFormed_nil : WellFormed [] := rfl

theorem wellFormed_insert {st : List Note} (h : WellFormed st)
    (text project : String) (tags : List String) (now path : String) :
    WellFormed (insert_note st text project tags now path).2 := by
  rw [wellFormed_iff_pairwise] at h ⊢
  refine List.pairwise_append.mpr ⟨h, List.pairwise_singleton _ _, ?_⟩
  intro a ha b hb
  rcases List.mem_singleton.mp hb with rfl
  exact mem_lt_nextId ha

theorem wellFormed_delete {st : List Note} (h : WellFormed st) (i : Nat) :
    WellFormed (delete_note st i).2 := by
  rw [wellFormed_iff_pairwise] at h ⊢
  exact List.Pairwise.sublist (List.filter_sublist st) h

/-- C1: for every input, `get_note` on the id returned by `insert_note`
returns a Note whose `text`, `project` and `path` equal the inserted values
character for character, whose `tags` are the normalized (sorted,
de-duplicated, comma-joined) form of the supplied tags, and whose
`created_at` is the clock reading taken during the call — hence not earlier
than the moment `insert_note` was called. -/
theorem insert_then_get (st : List Note) (text project : String)
    (tags : List String) (now path : String) :
    ∃ n : Note,
      get_note (insert_note st text project tags now path).2
          (insert_note st text project tags now path).1 = some n ∧
        n.text = text ∧ n.project = project ∧ n.tags = normalizeTags tags ∧
        n.path = path ∧ strLe now n.created_at = true := by
  refine ⟨⟨nextId st, text, project, normalizeTags tags, now, path⟩, ?_,
    rfl, rfl, rfl, rfl, strLe_refl now⟩
  show List.find? _ (st ++ [_]) = _
  rw [find?_append_of_none]
  · simp [List.find?, insert_note]
  · intro x hx
    simpa using Nat.ne_of_lt (mem_lt_nextId hx)

/-- C5 counterexample: ids are reused after deletion.  Insert two notes
(ids 1 and 2), delete note 2, insert again: the new insert returns id 2,
which was already assigned before — refuting "every insert returns an id
strictly greater than every id ever previously assigned". -/
theorem insert_id_reuse_counterexample :
    (insert_note (insert_note [] "first" "p" [] "t1" "/w").2
        "second" "p" [] "t2" "/w").1 = 2 ∧
    (insert_note
        (delete_note
          (insert_note (insert_note [] "first" "p" [] "t1" "/w").2
            "second" "p" [] "t2" "/w").2 2).2
        "third" "p" [] "t3" "/w").1 = 2 := by
  constructor <;> rfl

/-- C5 amended: `insert_note` returns an id strictly greater than the id of
every note currently in the store (it is exactly the maximum live id plus
one), so live ids never collide; but after the note holding the maximum id
is deleted, that id can be assigned again. -/
theorem insert_id_fresh_among_live (st : List Note) (text project : String)
    (tags : List String) (now path : String) :
    (insert_note st text project tags now path).1 = maxId st + 1 ∧
    ∀ n ∈ st, n.id < (insert_note st text project tags now path).1 :=
  ⟨rfl, fun _ hn => mem_lt_nextId hn⟩

/-- Witness for `insert_id_fresh_among_live` at a concrete one-note store. -/
theorem insert_id_fresh_among_live_witness :
    (⟨1, "a", "p", "", "t", "/"⟩ : Note) ∈ [(⟨1, "a", "p", "", "t", "/"⟩ : Note)] ∧
    (⟨1, "a", "p", "", "t", "/"⟩ : Note).id <
      (insert_note [(⟨1, "a", "p", "", "t", "/"⟩ : Note)] "b" "p" [] "t2" "/").1 :=
  ⟨List.mem_singleton.mpr rfl,
    (insert_id_fresh_among_live [⟨1, "a", "p", "", "t", "/"⟩] "b" "p" [] "t2" "/").2
      ⟨1, "a", "p", "", "t", "/"⟩ (List.mem_singleton.mpr rfl)⟩

/-- C6: `delete_note` returns true iff a note with the given id exists,
removes exactly the rows with that id and nothing else, a second delete of
the same id returns false, and `get_note` on that id afterwards returns
none.  (The embedding is total: no outcome is an error.) -/
theorem delete_semantics (st : List Note) (i : Nat) :
    ((delete_note st i).1 = true ↔ ∃ n ∈ st, n.id = i) ∧
    (delete_note (delete_note st i).2 i).1 = false ∧
    get_note (delete_note st i).2 i = none ∧
    (∀ n ∈ st, n.id ≠ i → n ∈ (delete_note st i).2) ∧
    (∀ n ∈ (delete_note st i).2, n ∈ st ∧ n.id ≠ i) := by
  have hmem : ∀ n : Note,
      n ∈ (delete_note st i).2 ↔ n ∈ st ∧ (n.id == i) = false := by
    intro n
    show n ∈ st.filter _ ↔ _
    rw [List.mem_filter]
    simp
  refine ⟨?_, ?_, ?_, ?_, ?_⟩
  · show decide _ = true ↔ _
    rw [decide_eq_true_iff, List.length_filter_lt_length_iff_exists]
    constructor
    · rintro ⟨n, hn, hp⟩
      exact ⟨n, hn, by simpa using hp⟩
    · rintro ⟨n, hn, hp⟩
      exact ⟨n, hn, by simp [hp]⟩
  · have hself : List.filter (fun n => !(n.id == i)) (delete_note st i).2
        = (delete_note st i).2 := by
      apply List.filter_eq_self.mpr
      intro x hx
      simp [((hmem x).mp hx).2]
    show decide _ = false
    rw [decide_eq_false_iff_not, Nat.not_lt, hself]
  · apply List.find?_eq_none.mpr
    intro x hx
    have := ((hmem x).mp hx).2
    simp [this]
  · intro n hn hni
    exact (hmem n).mpr ⟨hn, by simpa using hni⟩
  · intro n hn
    have := (hmem n).mp hn
    exact ⟨this.1, by simpa using this.2⟩

/-- Witness for `delete_semantics`: on a one-note store, the first delete
returns true, the second returns false, and the lookup afterwards is none. -/
theorem delete_semantics_witness :
    (delete_note [(⟨1, "a", "p", "", "t", "/"⟩ : Note)] 1).1 = true ∧
    (delete_note (delete_note [(⟨1, "a", "p", "", "t", "/"⟩ : Note)] 1).2 1).1 = false ∧
    get_note (delete_note [(⟨1, "a", "p", "", "t", "/"⟩ : Note)] 1).2 1 = none :=
  ⟨(delete_semantics [⟨1, "a", "p", "", "t", "/"⟩] 1).1.mpr
      ⟨⟨1, "a", "p", "", "t", "/"⟩, List.mem_singleton.mpr rfl, rfl⟩,
    (delete_semantics [⟨1, "a", "p", "", "t", "/"⟩] 1).2.1,
    (delete_semantics [⟨1, "a", "p", "", "t", "/"⟩] 1).2.2.1⟩

theorem reverse_pairwise_of_wf {st : List Note} (h : WellFormed st) :
    st.reverse.Pairwise byIdGt := by
  rw [List.pairwise_reverse]
  exact (wellFormed_iff_pairwise st).mp h

/-- C7: with the table in its invariant order, `iter_recent` returns notes
in strictly descending id order, with no filtering (every returned note is
stored), truncated to `limit`; the returned notes are exactly the ones with
the largest ids — every stored note left out has a smaller id than every
returned one, so after a sequence of inserts these are the last assigned
ids. -/
theorem iter_recent_spec (st : List Note) (k : Nat) (h : WellFormed st) :
    (iter_recent st k).length = min k st.length ∧
    List.Chain' byIdGt (iter_recent st k) ∧
    (∀ n ∈ iter_recent st k, n ∈ st) ∧
    (∀ n ∈ iter_recent st k, ∀ m ∈ st, m ∉ iter_recent st k → m.id < n.id) := by
  have hrev : st.reverse.Pairwise byIdGt := reverse_pairwise_of_wf h
  refine ⟨?_, ?_, ?_, ?_⟩
  · show (st.reverse.take k).length = _
    rw [List.length_take, List.length_reverse]
  · rw [List.chain'_iff_pairwise]
    exact List.Pairwise.sublist (List.take_sublist _ _) hrev
  · intro n hn
    exact List.mem_reverse.mp (List.mem_of_mem_take hn)
  · intro n hn m hm hmnot
    have hm2 : m ∈ st.reverse.take k ++ st.reverse.drop k := by
      rw [List.take_append_drop]
      exact List.mem_reverse.mpr hm
    have hmdrop : m ∈ st.reverse.drop k := by
      rcases List.mem_append.mp hm2 with h1 | h1
      · exact absurd h1 hmnot
      · exact h1
    have hpw : (st.reverse.take k ++ st.reverse.drop k).Pairwise byIdGt := by
      rw [List.take_append_drop]
      exact hrev
    exact (List.pairwise_append.mp hpw).2.2 n hn m hmdrop

/-- Witness for `iter_recent_spec`: five inserted notes, `iter_recent` with
limit 3 returns ids 5, 4, 3 — the last three assigned, newest first. -/
theorem iter_recent_spec_witness :
    WellFormed [sampleNote 1, sampleNote 2, sampleNote 3, sampleNote 4,
      sampleNote 5] ∧
    (iter_recent [sampleNote 1, sampleNote 2, sampleNote 3, sampleNote 4,
      sampleNote 5] 3).length =
      min 3 [sampleNote 1, sampleNote 2, sampleNote 3, sampleNote 4,
        sampleNote 5].length ∧
    (iter_recent [sampleNote 1, sampleNote 2, sampleNote 3, sampleNote 4,
      sampleNote 5] 3).map Note.id = [5, 4, 3] :=
  ⟨by decide,
    (iter_recent_spec [sampleNote 1, sampleNote 2, sampleNote 3, sampleNote 4,
      sampleNote 5] 3 (by decide)).1,
    by decide⟩

/-- C10: a search with empty query text and no project, since or until
filter is extensionally `iter_recent`: same notes, same order, same
truncation, for every store, limit and backend state. -/
theorem search_empty_eq_iter_recent (fa : Bool)
    (fm : String → Except String (List Nat)) (limit : Nat) (st : List Note) :
    search_notes fa fm "" none none none limit st =
      Except.ok (iter_recent st limit) := by
  show Except.ok (runSelect [] none none none limit st) = _
  rw [Except.ok.injEq]
  show (st.filter _).reverse.take limit = _
  rw [show st.filter (applyClauses ([] ++ optClause none _ ++ optClause none _
      ++ optClause none _)) = st.filter (fun _ => true) from
    List.filter_congr (fun x _ => rfl)]
  rw [List.filter_true]
  rfl

theorem applyClauses_append (cs ds : List (Note → Bool)) (n : Note) :
    applyClauses (cs ++ ds) n = (applyClauses cs n && applyClauses ds n) :=
  List.all_append

theorem applyClauses_proj (p : Option String) (n : Note) :
    applyClauses (optClause p (fun v m => m.project == v)) n = projPass p n := by
  cases p with
  | none => rfl
  | some v =>
    by_cases hv : v.isEmpty <;>
      simp [optClause, applyClauses, projPass, hv]

theorem applyClauses_since (s : Option String) (n : Note) :
    applyClauses (optClause s (fun v m => strLe v m.created_at)) n
      = sincePass s n := by
  cases s with
  | none => rfl
  | some v =>
    by_cases hv : v.isEmpty <;>
      simp [optClause, applyClauses, sincePass, hv]

theorem applyClauses_until (u : Option String) (n : Note) :
    applyClauses (optClause u (fun v m => strLe m.created_at v)) n
      = untilPass u n := by
  cases u with
  | none => rfl
  | some v =>
    by_cases hv : v.isEmpty <;>
      simp [optClause, applyClauses, untilPass, hv]
theorem applyClauses_nil (n : Note) : applyClauses [] n = true := rfl

theorem runSelect_no_text (p s u : Option String) (limit : Nat)
    (st : List Note) :
    runSelect [] p s u limit st =
      ((st.filter fun n => projPass p n && sincePass s n && untilPass u n)
        |>.reverse.take limit) := by
  have hf : st.filter (applyClauses (([] : List (Note → Bool))
        ++ optClause p (fun v m => m.project == v)
        ++ optClause s (fun v m => strLe v m.created_at)
        ++ optClause u (fun v m => strLe m.created_at v)))
      = st.filter (fun n => projPass p n && sincePass s n && untilPass u n) := by
    apply List.filter_congr
    intro x _
    rw [applyClauses_append, applyClauses_append, applyClauses_append]
    rw [applyClauses_nil, applyClauses_proj, applyClauses_since,
      applyClauses_until, Bool.true_and]
  show (st.filter _).reverse.take limit = _
  rw [hf]

/-- C3: with empty query text, `search_notes` returns exactly the stored
notes satisfying the conjunction of the present optional filters — project
by exact string equality, since and until as inclusive lexicographic string
bounds on `created_at` — ordered by strictly descending id and truncated to
`limit`.  (A filter passed as the empty string is treated as absent, which
is Python's `if project:` truthiness guard: only non-empty filters are
"present".) -/
theorem search_filters_conjunction (fa : Bool)
    (fm : String → Except String (List Nat)) (p s u : Option String)
    (limit : Nat) (st : List Note) (h : WellFormed st) :
    search_notes fa fm "" p s u limit st =
      Except.ok
        ((st.filter fun n => projPass p n && sincePass s n && untilPass u n)
          |>.reverse.take limit) ∧
    ∀ L, search_notes fa fm "" p s u limit st = Except.ok L →
      List.Chain' byIdGt L ∧ L.length ≤ limit ∧
        ∀ n ∈ L, n ∈ st ∧ projPass p n = true ∧ sincePass s n = true ∧
          untilPass u n = true := by
  have hmain : search_notes fa fm "" p s u limit st =
      Except.ok
        ((st.filter fun n => projPass p n && sincePass s n && untilPass u n)
          |>.reverse.take limit) :=
    congrArg Except.ok (runSelect_no_text p s u limit st)
  refine ⟨hmain, ?_⟩
  intro L hL
  rw [hmain, Except.ok.injEq] at hL
  subst hL
  set F := st.filter fun n => projPass p n && sincePass s n && untilPass u n
    with hF
  have hFwf : F.Pairwise byIdLt :=
    List.Pairwise.sublist (List.filter_sublist st)
      ((wellFormed_iff_pairwise st).mp h)
  have hrev : F.reverse.Pairwise byIdGt := by
    rw [List.pairwise_reverse]
    exact hFwf
  refine ⟨?_, List.length_take_le _ _, ?_⟩
  · rw [List.chain'_iff_pairwise]
    exact List.Pairwise.sublist (List.take_sublist _ _) hrev
  · intro n hn
    have hnF : n ∈ F := List.mem_reverse.mp (List.mem_of_mem_take hn)
    have hsplit := List.mem_filter.mp hnF
    rcases hsplit with ⟨hmem, hcond⟩
    simp only [Bool.and_eq_true] at hcond
    obtain ⟨⟨hp2, hs2⟩, h3⟩ := hcond
    exact ⟨hmem, hp2, hs2, h3⟩

/-- Witness for `search_filters_conjunction`: on `filterStore`, filtering by
project alpha within the two-day window returns exactly notes 4 and 3,
newest first. -/
theorem search_filters_conjunction_witness :
    WellFormed filterStore ∧
    search_notes false (fun _ => Except.ok []) "" (some "alpha")
        (some "2025-01-02") (some "2025-01-04") 10 filterStore =
      Except.ok
        [⟨4, "four", "alpha", "", "2025-01-03T00:00:00+00:00", "/w"⟩,
         ⟨3, "three", "alpha", "", "2025-01-02T09:00:00+00:00", "/w"⟩] :=
  ⟨by decide,
    Eq.trans
      (search_filters_conjunction false (fun _ => Except.ok []) (some "alpha")
          (some "2025-01-02") (some "2025-01-04") 10 filterStore (by decide)).1
      (by decide)⟩

/-- C4: when the advanced backend is active and the `MATCH` subquery rejects
the query text (e.g. malformed FTS5 syntax such as an unbalanced quote),
`search_notes` propagates the backend's `sqlite3.OperationalError` to the
caller unchanged — nothing in `search_notes` sanitizes the query or catches
the failure. -/
theorem search_fts_error_propagates (fm : String → Except String (List Nat))
    (q : String) (p s u : Option String) (limit : Nat) (st : List Note)
    (e : String) (hq : q ≠ "") (hf : fm q = Except.error e) :
    search_notes true fm q p s u limit st = Except.error e := by
  have hqe : ¬(q.isEmpty = true) := fun hh => hq ((String.isEmpty_iff q).mp hh)
  unfold search_notes
  rw [if_neg hqe, if_pos rfl, hf]

/-- Witness for `search_fts_error_propagates`: a query consisting of a lone
double quote, which the FTS5 match parser rejects, comes back to the caller
as the raised error. -/
theorem search_fts_error_propagates_witness :
    ("\"" : String) ≠ "" ∧
    search_notes true
        (fun _ => (Except.error "fts5: syntax error near \"\"\"" :
          Except String (List Nat)))
        "\"" none none none 50 [sampleNote 1] =
      Except.error "fts5: syntax error near \"\"\"" :=
  ⟨by decide,
    search_fts_error_propagates
      (fun _ => Except.error "fts5: syntax error near \"\"\"") "\"" none none
      none 50 [sampleNote 1] "fts5: syntax error near \"\"\"" (by decide) rfl⟩

theorem likeMatch_cons_pct (ps s : List Char) :
    likeMatch ('%' :: ps) s = s.tails.any (fun t => likeMatch ps t) := by
  simp [likeMatch]

theorem likeMatch_plain_nil {p : Char} (ps : List Char) (hp : p ≠ '%') :
    likeMatch (p :: ps) [] = false := by
  simp [likeMatch, hp]

theorem likeMatch_plain_cons {p c : Char} (ps s2 : List Char) (hp : p ≠ '%')
    (hp2 : p ≠ '_') :
    likeMatch (p :: ps) (c :: s2)
      = ((p.toLower == c.toLower) && likeMatch ps s2) := by
  simp [likeMatch, hp, hp2]

theorem likeMatch_underscore_cons {c : Char} (ps s2 : List Char) :
    likeMatch ('_' :: ps) (c :: s2) = likeMatch ps s2 := by
  simp [likeMatch]

theorem likeMatch_pct_iff (ps s : List Char) :
    likeMatch ('%' :: ps) s = true ↔ ∃ t, t <:+ s ∧ likeMatch ps t = true := by
  rw [likeMatch_cons_pct, List.any_eq_true]
  constructor
  · rintro ⟨t, ht, hm⟩
    exact ⟨t, (List.mem_tails _ _).mp ht, hm⟩
  · rintro ⟨t, ht, hm⟩
    exact ⟨t, (List.mem_tails _ _).mpr ht, hm⟩

theorem likeMatch_plain_iff {q s : List Char}
    (hw : ∀ c ∈ q, c ≠ '%' ∧ c ≠ '_') :
    likeMatch q s = true ↔ s.map Char.toLower = q.map Char.toLower := by
  induction q generalizing s with
  | nil => cases s <;> simp [likeMatch]
  | cons p ps ih =>
    have hp := hw p (List.mem_cons_self p ps)
    cases s with
    | nil => simp [likeMatch_plain_nil ps hp.1]
    | cons c s2 =>
      rw [likeMatch_plain_cons ps s2 hp.1 hp.2, Bool.and_eq_true]
      simp only [List.map_cons, List.cons.injEq]
      constructor
      · rintro ⟨h1, h2⟩
        exact ⟨(beq_iff_eq.mp h1).symm,
          (ih (fun c2 hc2 => hw c2 (List.mem_cons_of_mem p hc2))).mp h2⟩
      · rintro ⟨h1, h2⟩
        exact ⟨beq_iff_eq.mpr h1.symm,
          (ih (fun c2 hc2 => hw c2 (List.mem_cons_of_mem p hc2))).mpr h2⟩

theorem likeMatch_plain_pct_iff {q s : List Char}
    (hw : ∀ c ∈ q, c ≠ '%' ∧ c ≠ '_') :
    likeMatch (q ++ ['%']) s = true ↔
      q.map Char.toLower <+: s.map Char.toLower := by
  induction q generalizing s with
  | nil =>
    rw [List.nil_append, likeMatch_pct_iff]
    simp only [List.map_nil]
    constructor
    · intro _
      exact List.nil_prefix
    · intro _
      exact ⟨[], ⟨s, by simp⟩, rfl⟩
  | cons p ps ih =>
    have hp := hw p (List.mem_cons_self p ps)
    cases s with
    | nil =>
      rw [List.cons_append, likeMatch_plain_nil _ hp.1]
      simp [List.prefix_nil]
    | cons c s2 =>
      rw [List.cons_append, likeMatch_plain_cons _ _ hp.1 hp.2,
        Bool.and_eq_true]
      simp only [List.map_cons]
      rw [List.cons_prefix_cons]
      constructor
      · rintro ⟨h1, h2⟩
        exact ⟨beq_iff_eq.mp h1,
          (ih (fun c2 hc2 => hw c2 (List.mem_cons_of_mem p hc2))).mp h2⟩
      · rintro ⟨h1, h2⟩
        exact ⟨beq_iff_eq.mpr h1,
          (ih (fun c2 hc2 => hw c2 (List.mem_cons_of_mem p hc2))).mpr h2⟩

theorem wildcardFree_spec {q : String} (hw : wildcardFree q = true) :
    ∀ c ∈ q.data, c ≠ '%' ∧ c ≠ '_' := by
  intro c hc
  have h := List.all_eq_true.mp hw c hc
  simp only [Bool.and_eq_true, Bool.not_eq_true'] at h
  exact ⟨fun he => by simp [he] at h, fun he => by simp [he] at h⟩

/-- The full fallback pattern (`'%' ++ query ++ '%'`) matches a string
exactly when the query, ASCII-case-folded, is an infix of the string,
provided the query contains no LIKE wildcards. -/
theorem likeMatch_pattern_iff {q : String} (s : String)
    (hw : wildcardFree q = true) :
    likeMatch (likePattern q) s.data = true ↔ ciSubstr q s := by
  have hw' := wildcardFree_spec hw
  show likeMatch ('%' :: (q.data ++ ['%'])) s.data = true ↔ _
  rw [likeMatch_pct_iff]
  constructor
  · rintro ⟨t, hsuf, hm⟩
    have hpre : q.data.map Char.toLower <+: t.map Char.toLower :=
      (likeMatch_plain_pct_iff hw').mp hm
    have hsuf2 : t.map Char.toLower <:+ s.data.map Char.toLower :=
      hsuf.map Char.toLower
    exact List.infix_iff_prefix_suffix.mpr ⟨t.map Char.toLower, hpre, hsuf2⟩
  · intro hinf
    rcases List.infix_iff_prefix_suffix.mp hinf with ⟨t2, hpre, hsuf⟩
    have hdrop := List.suffix_iff_eq_drop.mp hsuf
    set k := (s.data.map Char.toLower).length - t2.length with hk
    refine ⟨s.data.drop k, List.drop_suffix k s.data, ?_⟩
    apply (likeMatch_plain_pct_iff hw').mpr
    rw [List.map_drop]
    rw [← hdrop]
    exact hpre

/-- C2 counterexample: with the backend unavailable, the fallback is the SQL
`LIKE` pattern match, not a substring test.  The query consisting of the
single LIKE wildcard `_` matches the note whose text is `x` (and whose tags
are empty), although `_` is not a case-insensitive substring of either
field — refuting the claimed "if and only if". -/
theorem fallback_substring_counterexample :
    search_notes false (fun _ => Except.ok []) "_" none none none 10
        [⟨1, "x", "p", "", "2025-01-01", "/w"⟩] =
      Except.ok [⟨1, "x", "p", "", "2025-01-01", "/w"⟩] ∧
    ¬ ciSubstr "_" "x" ∧ ¬ ciSubstr "_" "" := by
  refine ⟨by decide, by decide, by decide⟩

theorem wf_nodup {st : List Note} (h : WellFormed st) : st.Nodup := by
  have hpw := (wellFormed_iff_pairwise st).mp h
  apply List.Pairwise.imp ?_ hpw
  intro a b hab he
  rw [he] at hab
  exact Nat.lt_irrefl _ hab

theorem filter_eq_singleton_of_unique {l : List Note} {p : Note → Bool}
    {n : Note} (hnd : l.Nodup) (hn : n ∈ l) (hpn : p n = true)
    (hothers : ∀ m ∈ l, m ≠ n → p m = false) :
    l.filter p = [n] := by
  induction l with
  | nil => cases hn
  | cons a rest ih =>
    have hnda := List.nodup_cons.mp hnd
    rcases List.mem_cons.mp hn with rfl | hmem
    · rw [List.filter_cons, if_pos hpn]
      have hrest : rest.filter p = [] := by
        apply List.filter_eq_nil_iff.mpr
        intro m hm
        have hne : m ≠ n := fun he => hnda.1 (he ▸ hm)
        simp [hothers m (List.mem_cons_of_mem n hm) hne]
      rw [hrest]
    · have hane : a ≠ n := fun he => hnda.1 (he ▸ hmem)
      rw [List.filter_cons,
        if_neg (by simp [hothers a (List.mem_cons_self a rest) hane])]
      exact ih hnda.2 hmem
        (fun m hm hne => hothers m (List.mem_cons_of_mem a hm) hne)

/-- C2 amended: with the advanced backend unavailable and a non-empty query
free of LIKE wildcards, the fallback search returns exactly the stored notes
of which the query is a case-insensitive substring of `text` or of `tags`
(newest first, truncated to `limit`) — the `project` field is not
substring-matched; and if the query occurs in exactly one note's text and in
no other note's text or tags, the search returns exactly that note.  For
queries containing `%` or `_` the fallback is the raw SQL LIKE pattern
match instead (see the counterexample). -/
theorem search_fallback_substring (fm : String → Except String (List Nat))
    (q : String) (limit : Nat) (st : List Note)
    (hq : q ≠ "") (hw : wildcardFree q = true) :
    search_notes false fm q none none none limit st =
      Except.ok
        ((st.filter fun n =>
          decide (ciSubstr q n.text) || decide (ciSubstr q n.tags))
          |>.reverse.take limit) ∧
    ∀ n ∈ st, WellFormed st → 1 ≤ limit → ciSubstr q n.text →
      (∀ m ∈ st, m ≠ n → ¬ ciSubstr q m.text ∧ ¬ ciSubstr q m.tags) →
      search_notes false fm q none none none limit st = Except.ok [n] := by
  have hqe : ¬(q.isEmpty = true) := fun hh => hq ((String.isEmpty_iff q).mp hh)
  have hclause : ∀ n : Note,
      likeClause q n =
        (decide (ciSubstr q n.text) || decide (ciSubstr q n.tags)) := by
    intro n
    have h1 : likeMatch (likePattern q) n.text.data
        = decide (ciSubstr q n.text) := by
      by_cases hc : ciSubstr q n.text
      · rw [decide_eq_true hc, (likeMatch_pattern_iff n.text hw).mpr hc]
      · rw [decide_eq_false hc]
        cases hb : likeMatch (likePattern q) n.text.data with
        | false => rfl
        | true => exact absurd ((likeMatch_pattern_iff n.text hw).mp hb) hc
    have h2 : likeMatch (likePattern q) n.tags.data
        = decide (ciSubstr q n.tags) := by
      by_cases hc : ciSubstr q n.tags
      · rw [decide_eq_true hc, (likeMatch_pattern_iff n.tags hw).mpr hc]
      · rw [decide_eq_false hc]
        cases hb : likeMatch (likePattern q) n.tags.data with
        | false => rfl
        | true => exact absurd ((likeMatch_pattern_iff n.tags hw).mp hb) hc
    show (likeMatch (likePattern q) n.text.data
      || likeMatch (likePattern q) n.tags.data) = _
    rw [h1, h2]
  have hmain : search_notes false fm q none none none limit st =
      Except.ok
        ((st.filter fun n =>
          decide (ciSubstr q n.text) || decide (ciSubstr q n.tags))
          |>.reverse.take limit) := by
    unfold search_notes
    rw [if_neg hqe]
    show Except.ok (runSelect [likeClause q] none none none limit st) = _
    rw [Except.ok.injEq]
    show (st.filter _).reverse.take limit = _
    congr 1
    congr 1
    apply List.filter_congr
    intro x _
    show applyClauses ([likeClause q] ++ [] ++ [] ++ []) x = _
    rw [show [likeClause q] ++ ([] : List (Note → Bool)) ++ [] ++ []
        = [likeClause q] from rfl]
    show (likeClause q x && true) = _
    rw [Bool.and_true, hclause x]
  refine ⟨hmain, ?_⟩
  intro n hn hwf hlim hct hothers
  rw [hmain, Except.ok.injEq]
  have hfilter : (st.filter fun m =>
      decide (ciSubstr q m.text) || decide (ciSubstr q m.tags)) = [n] := by
    apply filter_eq_singleton_of_unique (wf_nodup hwf) hn
    · simp [hct]
    · intro m hm hne
      have := hothers m hm hne
      simp [this.1, this.2]
  rw [hfilter]
  show List.take limit [n] = [n]
  cases limit with
  | zero => omega
  | succ k => simp

/-- Witness for `search_fallback_substring`: with FTS5 forced unavailable,
searching `beta` over `likeStore` returns exactly the one matching note. -/
theorem search_fallback_substring_witness :
    search_notes false (fun _ => Except.ok []) "beta" none none none 5
        likeStore =
      Except.ok
        [⟨1, "Alpha beta gamma", "demo", "project:demo", "2025-01-01", "/w"⟩] :=
  (search_fallback_substring (fun _ => Except.ok []) "beta" 5 likeStore
      (by decide) (by decide)).2
    ⟨1, "Alpha beta gamma", "demo", "project:demo", "2025-01-01", "/w"⟩
    (List.mem_cons_self _ _) (by decide) (by decide) (by decide)
    (by decide)

instance : IsTotal (String × Nat) tagPairRel := by
  constructor
  intro p q
  unfold tagPairRel tagPairLe
  rcases Nat.lt_trichotomy p.2 q.2 with h | h | h
  · right
    rw [if_pos h]
  · rw [if_neg (by omega), if_neg (by omega), if_neg (by omega),
      if_neg (by omega)]
    exact charListLe_total p.1.data q.1.data
  · left
    rw [if_pos h]

instance : IsTrans (String × Nat) tagPairRel := by
  constructor
  intro p q r hab hbc
  unfold tagPairRel tagPairLe at hab hbc ⊢
  split_ifs at hab hbc ⊢ <;>
    first
      | rfl
      | (exact charListLe_trans hab hbc)
      | (exfalso; omega)

instance : IsAntisymm (String × Nat) tagPairRel := by
  constructor
  intro p q hab hba
  unfold tagPairRel tagPairLe at hab hba
  by_cases h1 : q.2 < p.2
  · rw [if_neg (by omega), if_pos h1] at hba
    simp at hba
  · by_cases h2 : p.2 < q.2
    · rw [if_neg (by omega), if_pos h2] at hab
      simp at hab
    · rw [if_neg h1, if_neg h2] at hab
      rw [if_neg h2, if_neg h1] at hba
      have hs : p.1 = q.1 := by
        have := charListLe_antisymm hab hba
        cases hp : p.1 with
        | mk d1 =>
          cases hq : q.1 with
          | mk d2 =>
            apply congrArg String.mk
            rw [hp, hq] at this
            exact this
      have hn : p.2 = q.2 := by omega
      exact Prod.ext hs hn

/-- C9: the stored tags string is the comma-join of the lexicographically
sorted, de-duplicated supplied tags: the sorted list is sorted, duplicate
free and has exactly the supplied tags as members; any two permutations of
the same tag multiset produce the same stored string; inserting with tags
b, a, a stores exactly the string `a,b`. -/
theorem tags_normalization :
    ((insert_note [] "t" "p" ["b", "a", "a"] "2025-01-01" "/w").2.map
      Note.tags) = ["a,b"] ∧
    (∀ l1 l2 : List String, l1.Perm l2 → normalizeTags l1 = normalizeTags l2) ∧
    ∀ l : List String,
      List.Sorted strRel (sortedTags l) ∧ (sortedTags l).Nodup ∧
        ∀ t, t ∈ sortedTags l ↔ t ∈ l := by
  refine ⟨by decide, ?_, ?_⟩
  · intro l1 l2 hp
    have hd : l1.dedup.Perm l2.dedup := hp.dedup
    have hperm : (sortedTags l1).Perm (sortedTags l2) :=
      ((List.perm_insertionSort strRel _).trans hd).trans
        (List.perm_insertionSort strRel _).symm
    unfold normalizeTags
    rw [List.eq_of_perm_of_sorted hperm (List.sorted_insertionSort strRel _)
      (List.sorted_insertionSort strRel _)]
  · intro l
    refine ⟨List.sorted_insertionSort strRel _, ?_, ?_⟩
    · exact ((List.perm_insertionSort strRel _).nodup_iff).mpr
        (List.nodup_dedup l)
    · intro t
      show t ∈ List.insertionSort strRel l.dedup ↔ t ∈ l
      rw [(List.perm_insertionSort strRel l.dedup).mem_iff, List.mem_dedup]

/-- Witness for `tags_normalization`: two concrete permutations of the same
tags store the same string. -/
theorem tags_normalization_witness :
    (["a", "b"] : List String).Perm ["b", "a"] ∧
    normalizeTags ["a", "b"] = normalizeTags ["b", "a"] :=
  ⟨by decide, tags_normalization.2.1 ["a", "b"] ["b", "a"] (by decide)⟩

/-- C8 counterexample: a note does not contribute each of its distinct tags
exactly once.  Inserting with tags consisting of `a` and `a`-with-a-leading-
space stores the tags string space-a-comma-a (the two fragments are distinct
strings, so `set` keeps both); `top_tags` then strips both fragments to the
single distinct tag `a` and counts it twice from this one note. -/
theorem top_tags_counterexample :
    normalizeTags [" a", "a"] = " a,a" ∧
    (noteTagFrags (normalizeTags [" a", "a"])).dedup = ["a"] ∧
    top_tags (insert_note [] "t" "p" [" a", "a"] "2025-01-01" "/w").2 10
      = [("a", 2)] := by
  refine ⟨by decide, by decide, by decide⟩

/-- C8 amended: `top_tags` counts one occurrence per comma-separated
fragment whose stripped form is non-empty (so a note whose fragments strip
to the same tag contributes that tag once per fragment, and empty or
whitespace-only fragments are ignored); the result is ordered by descending
count with ties broken by ascending tag name, is truncated to `limit`, every
returned pair carries the true positive occurrence count of its tag, and
when `limit` covers all distinct tags every distinct tag appears. -/
theorem top_tags_spec (st : List Note) (limit : Nat) :
    List.Sorted tagPairRel (top_tags st limit) ∧
    (top_tags st limit).length ≤ limit ∧
    (∀ pr ∈ top_tags st limit,
      pr.1 ∈ tagKeys st ∧ pr.2 = tagCount st pr.1 ∧ 0 < pr.2) ∧
    ∀ t ∈ tagKeys st, (tagKeys st).length ≤ limit →
      (t, tagCount st t) ∈ top_tags st limit := by
  have hsorted : List.Sorted tagPairRel
      (List.insertionSort tagPairRel (tagPairs st)) :=
    List.sorted_insertionSort tagPairRel _
  have hperm := List.perm_insertionSort tagPairRel (tagPairs st)
  refine ⟨?_, List.length_take_le _ _, ?_, ?_⟩
  · exact List.Pairwise.sublist (List.take_sublist _ _) hsorted
  · intro pr hpr
    have hin : pr ∈ List.insertionSort tagPairRel (tagPairs st) :=
      List.mem_of_mem_take hpr
    have hin2 : pr ∈ tagPairs st := hperm.mem_iff.mp hin
    rcases List.mem_map.mp hin2 with ⟨t, ht, hpe⟩
    have h1 : pr.1 = t := by rw [← hpe]
    have h2 : pr.2 = tagCount st t := by rw [← hpe]
    have hpos : 0 < tagCount st t := by
      have htmem : t ∈ allTagFrags st := List.mem_dedup.mp ht
      exact List.count_pos_iff.mpr htmem
    exact ⟨h1 ▸ ht, by rw [h2, h1], by rw [h2]; exact hpos⟩
  · intro t ht hlen
    have hall : top_tags st limit
        = List.insertionSort tagPairRel (tagPairs st) := by
      apply List.take_of_length_le
      rw [hperm.length_eq]
      show ((tagKeys st).map (fun t => (t, tagCount st t))).length ≤ limit
      rw [List.length_map]
      exact hlen
    rw [hall, hperm.mem_iff]
    exact List.mem_map.mpr ⟨t, ht, rfl⟩

/-- Witness for `top_tags_spec`: on `tagStore` the top two tags are a and b
with count 3 (tie broken lexicographically), and the returned pair for a
carries its true positive count. -/
theorem top_tags_spec_witness :
    top_tags tagStore 2 = [("a", 3), ("b", 3)] ∧
    (("a", 3) : String × Nat).2 = tagCount tagStore ("a", 3).1 ∧
    0 < (("a", 3) : String × Nat).2 :=
  ⟨by decide,
    ((top_tags_spec tagStore 2).2.2.1 ("a", 3) (by decide)).2.1,
    ((top_tags_spec tagStore 2).2.2.1 ("a", 3) (by decide)).2.2⟩
